import Mathlib

/-!
Verification development for the unified hybrid memory store of the
agent-framework repository.

The subsystem under study fans each write out to three backends:

* a flat-file JSON backend   (src/unified_memory/storage/json_storage.py),
* a relational SQLite backend (src/core/memory/storage/sqlite_storage.py),
* a vector FAISS backend      (src/core/memory/storage/faiss_storage.py),

coordinated by `HybridMemoryStorage` (src/core/memory/storage/hybrid_storage.py)
and fronted by `UnifiedMemoryHub` (src/unified_memory/memory_hub.py).

The embedding below translates each Python operation into a pure Lean
function on explicit store states.  Persistent stores (a directory of JSON
files, an SQLite table, Python dicts) are modelled as association lists with
unique keys; `async` methods become state-passing functions; calls into the
external FAISS library (`index.search`) are modelled by passing the library's
answer in as an oracle argument, since the approximate-nearest-neighbour
algorithm is external C++ code outside this repository.
-/

namespace AgentMem

/-! ## Enumerations (src/unified_memory/memory_interface.py, lines 16-36) -/

/-- `MemoryType(str, Enum)` from memory_interface.py lines 16-27. -/
inductive MemoryType where
  | user_data
  | conversation
  | fragment
  | solution
  | system
  | system_state
  | knowledge
  | user_preference
  | error_log
  | task
deriving DecidableEq, Repr

/-- The `.value` string of each `MemoryType` member. -/
def MemoryType.toValue : MemoryType → String
  | .user_data => "user_data"
  | .conversation => "conversation"
  | .fragment => "fragment"
  | .solution => "solution"
  | .system => "system"
  | .system_state => "system_state"
  | .knowledge => "knowledge"
  | .user_preference => "user_preference"
  | .error_log => "error_log"
  | .task => "task"

/-- Pydantic validation of a string into `MemoryType` (by enum value). -/
def MemoryType.ofValue : String → Option MemoryType
  | "user_data" => some .user_data
  | "conversation" => some .conversation
  | "fragment" => some .fragment
  | "solution" => some .solution
  | "system" => some .system
  | "system_state" => some .system_state
  | "knowledge" => some .knowledge
  | "user_preference" => some .user_preference
  | "error_log" => some .error_log
  | "task" => some .task
  | _ => none

/-- `RetentionPolicy(str, Enum)` from memory_interface.py lines 30-36. -/
inductive RetentionPolicy where
  | permanent
  | session
  | temporary
  | auto_expire
  | tier_specific
deriving DecidableEq, Repr

/-- The `.value` string of each `RetentionPolicy` member. -/
def RetentionPolicy.toValue : RetentionPolicy → String
  | .permanent => "permanent"
  | .session => "session"
  | .temporary => "temporary"
  | .auto_expire => "auto_expire"
  | .tier_specific => "tier_specific"

/-- Pydantic validation of a string into `RetentionPolicy` (by enum value). -/
def RetentionPolicy.ofValue : String → Option RetentionPolicy
  | "permanent" => some .permanent
  | "session" => some .session
  | "temporary" => some .temporary
  | "auto_expire" => some .auto_expire
  | "tier_specific" => some .tier_specific
  | _ => none

theorem memoryTypeValue_roundtrip (mt : MemoryType) :
    MemoryType.ofValue (MemoryType.toValue mt) = some mt := by
  cases mt <;> rfl

theorem retentionPolicyValue_roundtrip (rp : RetentionPolicy) :
    RetentionPolicy.ofValue (RetentionPolicy.toValue rp) = some rp := by
  cases rp <;> rfl

/-! ## The memory record (src/unified_memory/memory_interface.py, lines 47-94)

`UnifiedMemoryItem` is a pydantic model.  We embed the fields that the
storage backends read or write: these are exactly the ten columns of the
SQLite `memories` table (sqlite_storage.py lines 31-44) and the fields the
FAISS result copy re-populates (faiss_storage.py lines 172-183).  The
remaining pydantic fields (priority, usage_score, embeddings, related_items,
parent_id, confidence, relevance_decay, has_pii, encryption_key,
last_modified) are defaulted constants never consulted by any operation
verified here.  `datetime` values are modelled as whole seconds since the
epoch (`Nat`); `isoformat`/`fromisoformat` round-trip exactly, so the
serialisation of a timestamp is modelled as the identity.  `metadata` is a
string-keyed JSON object; `json.dumps`/`json.loads` round-trip it exactly,
so its serialised form is modelled by the map itself. -/
structure UnifiedMemoryItem where
  id : String
  content : String
  memory_type : MemoryType
  tier_source : String
  tags : List String
  metadata : List (String × String)
  timestamp : Nat
  retention_policy : RetentionPolicy
  access_count : Nat
  last_accessed : Option Nat
deriving DecidableEq, Repr

/-! ## Association lists with Python-dict semantics

File-per-id directories, the SQLite table keyed by its primary key, and the
Python dicts of the FAISS backend are all finite maps.  We model them as
association lists; `insertA` overwrites in place (dict assignment /
`INSERT OR REPLACE` / file overwrite) and `eraseA` removes the entry
(`del` / `DELETE` / `os.remove`). -/

def lookupA {K V : Type} [DecidableEq K] : List (K × V) → K → Option V
  | [], _ => none
  | (k₁, v₁) :: rest, k => if k = k₁ then some v₁ else lookupA rest k

def insertA {K V : Type} [DecidableEq K] : List (K × V) → K → V → List (K × V)
  | [], k, v => [(k, v)]
  | (k₁, v₁) :: rest, k, v =>
    if k = k₁ then (k, v) :: rest else (k₁, v₁) :: insertA rest k v

def eraseA {K V : Type} [DecidableEq K] : List (K × V) → K → List (K × V)
  | [], _ => []
  | (k₁, v₁) :: rest, k => if k = k₁ then rest else (k₁, v₁) :: eraseA rest k

section AssocLemmas

variable {K V : Type} [DecidableEq K]

theorem lookupA_insertA_self (l : List (K × V)) (k : K) (v : V) :
    lookupA (insertA l k v) k = some v := by
  induction l with
  | nil => simp [insertA, lookupA]
  | cons hd tl ih =>
    obtain ⟨k₁, v₁⟩ := hd
    by_cases h : k = k₁
    · simp [insertA, h, lookupA]
    · simp [insertA, h, lookupA, ih]

theorem lookupA_insertA_ne (l : List (K × V)) {k k' : K} (v : V) (h : k' ≠ k) :
    lookupA (insertA l k v) k' = lookupA l k' := by
  induction l with
  | nil => simp [insertA, lookupA, h]
  | cons hd tl ih =>
    obtain ⟨k₁, v₁⟩ := hd
    by_cases hk : k = k₁
    · subst hk
      simp [insertA, lookupA, h]
    · by_cases hk' : k' = k₁
      · simp [insertA, hk, lookupA, hk']
      · simp [insertA, hk, lookupA, hk', ih]

theorem lookupA_eraseA_ne (l : List (K × V)) {k k' : K} (h : k' ≠ k) :
    lookupA (eraseA l k) k' = lookupA l k' := by
  induction l with
  | nil => simp [eraseA]
  | cons hd tl ih =>
    obtain ⟨k₁, v₁⟩ := hd
    by_cases hk : k = k₁
    · subst hk
      simp [eraseA, lookupA, h]
    · by_cases hk' : k' = k₁
      · simp [eraseA, hk, lookupA, hk']
      · simp [eraseA, hk, lookupA, hk', ih]

theorem eraseA_sublist (l : List (K × V)) (k : K) : List.Sublist (eraseA l k) l := by
  induction l with
  | nil => simp [eraseA]
  | cons hd tl ih =>
    obtain ⟨k₁, v₁⟩ := hd
    by_cases hk : k = k₁
    · rw [eraseA, if_pos hk]
      exact List.sublist_cons_self _ _
    · rw [eraseA, if_neg hk]
      exact ih.cons₂ _

theorem mem_of_mem_eraseA {l : List (K × V)} {k : K} {p : K × V}
    (h : p ∈ eraseA l k) : p ∈ l :=
  (eraseA_sublist l k).subset h

theorem lookupA_eq_none_iff {l : List (K × V)} {k : K} :
    lookupA l k = none ↔ k ∉ l.map Prod.fst := by
  induction l with
  | nil => simp [lookupA]
  | cons hd tl ih =>
    obtain ⟨k₁, v₁⟩ := hd
    by_cases hk : k = k₁
    · simp [lookupA, hk]
    · simp [lookupA, hk, ih]

theorem lookupA_mem {l : List (K × V)} {k : K} {v : V}
    (h : lookupA l k = some v) : (k, v) ∈ l := by
  induction l with
  | nil => simp [lookupA] at h
  | cons hd tl ih =>
    obtain ⟨k₁, v₁⟩ := hd
    by_cases hk : k = k₁
    · subst hk
      simp [lookupA] at h
      simp [h]
    · simp [lookupA, hk] at h
      exact List.mem_cons_of_mem _ (ih h)

theorem insertA_of_lookupA_none {l : List (K × V)} {k : K} (v : V)
    (h : lookupA l k = none) : insertA l k v = l ++ [(k, v)] := by
  induction l with
  | nil => simp [insertA]
  | cons hd tl ih =>
    obtain ⟨k₁, v₁⟩ := hd
    by_cases hk : k = k₁
    · simp [lookupA, hk] at h
    · simp [lookupA, hk] at h
      simp [insertA, hk, ih h]

theorem eraseA_of_lookupA_none {l : List (K × V)} {k : K}
    (h : lookupA l k = none) : eraseA l k = l := by
  induction l with
  | nil => simp [eraseA]
  | cons hd tl ih =>
    obtain ⟨k₁, v₁⟩ := hd
    by_cases hk : k = k₁
    · simp [lookupA, hk] at h
    · simp [lookupA, hk] at h
      simp [eraseA, hk, ih h]

theorem mem_insertA {l : List (K × V)} {k : K} {v : V} {p : K × V}
    (h : p ∈ insertA l k v) : p = (k, v) ∨ p ∈ l := by
  induction l with
  | nil => simp [insertA] at h; simp [h]
  | cons hd tl ih =>
    obtain ⟨k₁, v₁⟩ := hd
    by_cases hk : k = k₁
    · subst hk
      simp [insertA] at h
      rcases h with h | h
      · left; simp [h]
      · right; exact List.mem_cons_of_mem _ h
    · simp [insertA, hk] at h
      rcases h with h | h
      · right; simp [h]
      · rcases ih h with h' | h'
        · left; exact h'
        · right; exact List.mem_cons_of_mem _ h'

theorem fst_ne_of_mem_eraseA {l : List (K × V)} {k : K} {p : K × V}
    (nd : (l.map Prod.fst).Nodup) (h : p ∈ eraseA l k) : p.1 ≠ k := by
  induction l with
  | nil => simp [eraseA] at h
  | cons hd tl ih =>
    obtain ⟨k₁, v₁⟩ := hd
    simp only [List.map_cons, List.nodup_cons] at nd
    by_cases hk : k = k₁
    · subst hk
      simp only [eraseA, if_pos rfl] at h
      intro hpk
      exact nd.1 (hpk ▸ (List.mem_map_of_mem Prod.fst h))
    · simp only [eraseA, if_neg hk] at h
      rcases List.mem_cons.mp h with h | h
      · intro hpk
        exact hk (by simpa [h] using hpk.symm)
      · exact ih nd.2 h

theorem insertA_decomp {l : List (K × V)} {k : K} {w : V} (v : V)
    (h : lookupA l k = some w) :
    ∃ l₁ l₂, l = l₁ ++ (k, w) :: l₂ ∧ (∀ p ∈ l₁, p.1 ≠ k) ∧
      insertA l k v = l₁ ++ (k, v) :: l₂ := by
  induction l with
  | nil => simp [lookupA] at h
  | cons hd tl ih =>
    obtain ⟨k₁, v₁⟩ := hd
    by_cases hk : k = k₁
    · subst hk
      simp [lookupA] at h
      exact ⟨[], tl, by simp [h], by simp, by simp [insertA]⟩
    · simp only [lookupA, if_neg hk] at h
      obtain ⟨l₁, l₂, hl, hne, hins⟩ := ih h
      refine ⟨(k₁, v₁) :: l₁, l₂, by simp [hl], ?_, by simp [insertA, hk, hins]⟩
      intro p hp
      rcases List.mem_cons.mp hp with hp | hp
      · simp [hp]; exact fun he => hk he.symm
      · exact hne p hp

end AssocLemmas

/-! ## Tag serialisation for the relational backend

sqlite_storage.py stores `tags` as the single TEXT column produced by
Python's `','.join(item.tags)` (line 59) and deserialises it with
`row[4].split(',')` (line 77).  We embed Python's `str.join`/`str.split`
semantics directly on character lists; in particular `''.split(',')`
evaluates to `['']`, never to `[]`. -/

/-- Python `','.join(ts)` at the character level. -/
def joinChars : List String → List Char
  | [] => []
  | [t] => t.data
  | t :: t₂ :: ts => t.data ++ ',' :: joinChars (t₂ :: ts)

/-- Python `s.split(',')` at the character level: one part per comma gap,
empty parts included, and the empty string yields a single empty part. -/
def splitChars : List Char → List (List Char)
  | [] => [[]]
  | c :: rest =>
    if c = ',' then [] :: splitChars rest
    else
      match splitChars rest with
      | [] => [[c]]
      | p :: ps => (c :: p) :: ps

/-- `','.join(item.tags)` (sqlite_storage.py line 59). -/
def joinTags (ts : List String) : String :=
  String.mk (joinChars ts)

/-- `row[4].split(',')` (sqlite_storage.py line 77). -/
def splitTags (s : String) : List String :=
  (splitChars s.data).map String.mk

theorem splitChars_comma_free (xs : List Char) (hx : ∀ c ∈ xs, c ≠ ',') :
    splitChars xs = [xs] := by
  induction xs with
  | nil => rfl
  | cons c rest ih =>
    have hc : c ≠ ',' := hx c (List.mem_cons_self _ _)
    have hr := ih (fun c' hc' => hx c' (List.mem_cons_of_mem _ hc'))
    rw [splitChars, if_neg hc, hr]

theorem splitChars_prepend (xs zs : List Char) (hx : ∀ c ∈ xs, c ≠ ',')
    (h : List Char) (t' : List (List Char)) (hz : splitChars zs = h :: t') :
    splitChars (xs ++ zs) = (xs ++ h) :: t' := by
  induction xs with
  | nil => simpa using hz
  | cons c rest ih =>
    have hc : c ≠ ',' := hx c (List.mem_cons_self _ _)
    have hr := ih (fun c' hc' => hx c' (List.mem_cons_of_mem _ hc'))
    show splitChars (c :: (rest ++ zs)) = _
    rw [splitChars, if_neg hc, hr]
    simp

theorem splitChars_joinChars (ts : List String) (hne : ts ≠ [])
    (hcf : ∀ t ∈ ts, ∀ c ∈ t.data, c ≠ ',') :
    splitChars (joinChars ts) = ts.map String.data := by
  induction ts with
  | nil => exact absurd rfl hne
  | cons t rest ih =>
    cases rest with
    | nil =>
      rw [joinChars]
      rw [splitChars_comma_free t.data (hcf t (List.mem_cons_self _ _))]
      rfl
    | cons t₂ ts₂ =>
      have hrest := ih (by simp)
        (fun t' ht' c hc => hcf t' (List.mem_cons_of_mem _ ht') c hc)
      rw [joinChars]
      have hcomma : splitChars (',' :: joinChars (t₂ :: ts₂)) =
          [] :: splitChars (joinChars (t₂ :: ts₂)) := by
        rw [splitChars, if_pos rfl]
      have := splitChars_prepend t.data (',' :: joinChars (t₂ :: ts₂))
        (hcf t (List.mem_cons_self _ _)) [] (splitChars (joinChars (t₂ :: ts₂))) hcomma
      rw [this, hrest]
      simp

theorem map_mk_data (ts : List String) :
    (ts.map String.data).map String.mk = ts := by
  induction ts with
  | nil => rfl
  | cons t rest ih => simp [ih]

theorem splitTags_joinTags (ts : List String) (hne : ts ≠ [])
    (hcf : ∀ t ∈ ts, ∀ c ∈ t.data, c ≠ ',') :
    splitTags (joinTags ts) = ts := by
  unfold splitTags joinTags
  show (splitChars (joinChars ts)).map String.mk = ts
  rw [splitChars_joinChars ts hne hcf, map_mk_data]

/-! ## Query filters and search results
(src/unified_memory/memory_interface.py, lines 97-145)

`MemoryQueryFilter` is embedded with the predicate fields the verified
backends actually read; the remaining optional predicates
(semantic_query, metadata_filters, created_after/before, accessed_after,
min_confidence, min_usage_score, priorities, related_to, parent_id, offset,
sort_by, sort_desc) default to `None`/constants and are never consulted by
json/sqlite/faiss `query`.  Crucially, the pydantic model defines **no**
`session_id` field: an unknown `session_id=...` keyword passed to the
constructor is silently discarded (pydantic ignores extra kwargs), which the
hub does in `get_session_memories` (memory_hub.py lines 82-85). -/
structure MemoryQueryFilter where
  content_search : Option String := none
  memory_types : Option (List MemoryType) := none
  tier_sources : Option (List String) := none
  tags : Option (List String) := none
  start_time : Option Nat := none
  end_time : Option Nat := none
  limit : Nat := 10
deriving DecidableEq, Repr

/-- Python truthiness of an `Optional[str]` (`None` and `''` are falsy). -/
def truthyStr : Option String → Bool
  | none => false
  | some s => !s.isEmpty

/-- Python truthiness of an `Optional[List]` (`None` and `[]` are falsy). -/
def truthyList {α : Type} : Option (List α) → Bool
  | none => false
  | some [] => false
  | some (_ :: _) => true

/-- `MemorySearchResult` (memory_interface.py lines 135-145); the
`search_time_ms`, `query_filter` echo and optional semantic fields are
wall-clock/diagnostic payload not modelled. -/
structure MemorySearchResult where
  items : List UnifiedMemoryItem
  total_count : Nat
deriving DecidableEq, Repr

/-- The `updates: Dict[str, Any]` argument of `update`, applied by a
`setattr` loop over the mutable data fields (json_storage.py lines 86-87,
sqlite_storage.py lines 127-128).  Each present entry overwrites the
corresponding record field. -/
structure MemoryUpdates where
  content : Option String := none
  memory_type : Option MemoryType := none
  tier_source : Option String := none
  tags : Option (List String) := none
  metadata : Option (List (String × String)) := none
  timestamp : Option Nat := none
  retention_policy : Option RetentionPolicy := none
  access_count : Option Nat := none
  last_accessed : Option (Option Nat) := none
deriving Repr

/-- The `for key, value in updates.items(): setattr(item, key, value)` loop. -/
def applyUpdates (u : MemoryUpdates) (it : UnifiedMemoryItem) : UnifiedMemoryItem :=
  { it with
    content := u.content.getD it.content
    memory_type := u.memory_type.getD it.memory_type
    tier_source := u.tier_source.getD it.tier_source
    tags := u.tags.getD it.tags
    metadata := u.metadata.getD it.metadata
    timestamp := u.timestamp.getD it.timestamp
    retention_policy := u.retention_policy.getD it.retention_policy
    access_count := u.access_count.getD it.access_count
    last_accessed := u.last_accessed.getD it.last_accessed }

/-! ## Flat-file JSON backend (src/unified_memory/storage/json_storage.py)

The backend keeps one file `{id}.json` per record under its directory.  The
directory is modelled as an association list from id to record; pydantic's
`item.dict()` → `json.dump` → `json.load` → `UnifiedMemoryItem(**data)`
round-trip is lossless (datetimes pass through `isoformat`/`fromisoformat`),
so a stored file is modelled by the record itself. -/

abbrev JSONStore := List (String × UnifiedMemoryItem)

/-- `JSONMemoryStorage.save` (lines 29-46): write file `{id}.json`,
overwriting if present; returns the id. -/
def jsonSave (s : JSONStore) (item : UnifiedMemoryItem) : JSONStore × String :=
  (insertA s item.id item, item.id)

/-- `JSONMemoryStorage.get_by_id` (lines 48-57): `None` if the file is
absent, else the deserialised record. -/
def jsonGetById (s : JSONStore) (memory_id : String) : Option UnifiedMemoryItem :=
  lookupA s memory_id

/-- `JSONMemoryStorage.update` (lines 79-89): load, setattr the updates,
re-save; `False` if the id does not exist. -/
def jsonUpdate (s : JSONStore) (memory_id : String) (u : MemoryUpdates) :
    JSONStore × Bool :=
  match lookupA s memory_id with
  | none => (s, false)
  | some it => ((jsonSave s (applyUpdates u it)).1, true)

/-- `JSONMemoryStorage.delete` (lines 91-99): remove the file if present and
return `True`, else return `False`. -/
def jsonDelete (s : JSONStore) (memory_id : String) : JSONStore × Bool :=
  if (lookupA s memory_id).isSome then (eraseA s memory_id, true) else (s, false)

/-- `JSONMemoryStorage.batch_save` (lines 101-109): per-record save,
returning all ids. -/
def jsonBatchSave (s : JSONStore) (items : List UnifiedMemoryItem) :
    JSONStore × List String :=
  (items.foldl (fun acc it => (jsonSave acc it).1) s, items.map (fun it => it.id))

/-- The expiration test of `cleanup_expired` (json_storage.py line 122):
`item.retention_policy == 'temporary' and
 (datetime.utcnow() - item.timestamp).total_seconds() > 24 * 3600`. -/
def expiredAt (now : Nat) (it : UnifiedMemoryItem) : Bool :=
  it.retention_policy == RetentionPolicy.temporary && decide (24 * 3600 < now - it.timestamp)

/-- `JSONMemoryStorage.cleanup_expired` (lines 111-126): scan every file,
count each expired record, and delete it unless `dry_run`. -/
def jsonCleanupExpired (now : Nat) (s : JSONStore) (dry_run : Bool) :
    JSONStore × Nat :=
  ((if dry_run then s else s.filter (fun p => !(expiredAt now p.2))),
   (s.filter (fun p => expiredAt now p.2)).length)

/-! ## Relational SQLite backend (src/core/memory/storage/sqlite_storage.py)

A single table `memories` keyed by `id`.  Each operation opens a fresh
connection and `_initialize_db` creates the table if absent; the table is
modelled as an association list of rows keyed by the primary key. -/

/-- One row of the `memories` table (schema at sqlite_storage.py
lines 31-44).  `tags` is the comma-joined TEXT column; `metadata` is the
`json.dumps` blob, modelled by the map it serialises (JSON round-trips it);
`timestamp`/`last_accessed` are `isoformat` strings, modelled by the
timestamps they denote. -/
structure MemoryRow where
  id : String
  content : String
  memory_type : String
  tier_source : String
  tags : String
  metadata : List (String × String)
  timestamp : Nat
  retention_policy : String
  access_count : Nat
  last_accessed : Option Nat
deriving DecidableEq, Repr

abbrev SQLiteStore := List (String × MemoryRow)

/-- The parameter tuple of the `INSERT OR REPLACE` (sqlite_storage.py
lines 57-62): enums are bound by their value strings, tags are comma-joined. -/
def itemToRow (it : UnifiedMemoryItem) : MemoryRow :=
  { id := it.id
    content := it.content
    memory_type := it.memory_type.toValue
    tier_source := it.tier_source
    tags := joinTags it.tags
    metadata := it.metadata
    timestamp := it.timestamp
    retention_policy := it.retention_policy.toValue
    access_count := it.access_count
    last_accessed := it.last_accessed }

/-- Reconstruction of a `UnifiedMemoryItem` from a row (sqlite_storage.py
lines 75-82): the enum strings go back through pydantic validation (an
invalid string raises a ValidationError, modelled as `none`) and tags are
split on commas. -/
def rowToItem (r : MemoryRow) : Option UnifiedMemoryItem :=
  match MemoryType.ofValue r.memory_type, RetentionPolicy.ofValue r.retention_policy with
  | some mt, some rp =>
    some
      { id := r.id
        content := r.content
        memory_type := mt
        tier_source := r.tier_source
        tags := splitTags r.tags
        metadata := r.metadata
        timestamp := r.timestamp
        retention_policy := rp
        access_count := r.access_count
        last_accessed := r.last_accessed }
  | _, _ => none

/-- `SQLiteMemoryStorage.save` (lines 47-64): upsert by primary key. -/
def sqliteSave (s : SQLiteStore) (item : UnifiedMemoryItem) : SQLiteStore × String :=
  (insertA s item.id (itemToRow item), item.id)

/-- `SQLiteMemoryStorage.get_by_id` (lines 66-83). -/
def sqliteGetById (s : SQLiteStore) (memory_id : String) : Option UnifiedMemoryItem :=
  (lookupA s memory_id).bind rowToItem

/-- Whether `hay` starts with `pat`. -/
def startsWithL : List Char → List Char → Bool
  | _, [] => true
  | [], _ :: _ => false
  | c :: cs, p :: ps => c == p && startsWithL cs ps

/-- Whether `pat` occurs contiguously inside `hay`. -/
def containsL : List Char → List Char → Bool
  | [], pat => pat.isEmpty
  | c :: rest, pat => startsWithL (c :: rest) pat || containsL rest pat

/-- Case-insensitive containment, the semantics of SQLite
`content LIKE '%pat%'` (sqlite_storage.py lines 93-95). -/
def likeContains (content pat : String) : Bool :=
  containsL (content.data.map Char.toLower) (pat.data.map Char.toLower)

/-- `SQLiteMemoryStorage.query` (lines 85-117): optional substring predicate
on `content`, all matching rows fetched, `items` truncated to `limit`,
`total_count` the number of fetched rows. -/
def sqliteQuery (s : SQLiteStore) (f : MemoryQueryFilter) : MemorySearchResult :=
  let rows :=
    if truthyStr f.content_search then
      s.filter (fun p => likeContains p.2.content (f.content_search.getD ""))
    else s
  let results := rows.filterMap (fun p => rowToItem p.2)
  { items := results.take f.limit, total_count := results.length }

/-- `SQLiteMemoryStorage.update` (lines 119-131): read the row back as an
item, setattr the updates, re-save; `False` if the id is absent. -/
def sqliteUpdate (s : SQLiteStore) (memory_id : String) (u : MemoryUpdates) :
    SQLiteStore × Bool :=
  match sqliteGetById s memory_id with
  | none => (s, false)
  | some it => ((sqliteSave s (applyUpdates u it)).1, true)

/-- `SQLiteMemoryStorage.delete` (lines 133-141): execute
`DELETE FROM memories WHERE id = ?` and return `True` unconditionally —
the SQL statement succeeds whether or not a row matched. -/
def sqliteDelete (s : SQLiteStore) (memory_id : String) : SQLiteStore × Bool :=
  (eraseA s memory_id, true)

/-- `SQLiteMemoryStorage.batch_save` (lines 143-162). -/
def sqliteBatchSave (s : SQLiteStore) (items : List UnifiedMemoryItem) :
    SQLiteStore × List String :=
  (items.foldl (fun acc it => (sqliteSave acc it).1) s, items.map (fun it => it.id))

/-! ## Vector FAISS backend (src/core/memory/storage/faiss_storage.py)

The backend owns a sentence-transformer embedding model and an
`IndexFlatL2` append-only index, plus two bookkeeping dicts:
`id_to_memory` (index slot → record) and `memory_id_to_index`
(record id → index slot).  The embedding model is external (a neural
network); it is modelled as an opaque function `embed : String → V` into an
arbitrary vector type `V`.  `index.ntotal` is the length of the modelled
vector list; `_save_index` persists the in-memory state, which the model is. -/

structure FAISSState (V : Type) where
  index : List V
  id_to_memory : List (Nat × UnifiedMemoryItem)
  memory_id_to_index : List (String × Nat)
  next_index_position : Nat
deriving DecidableEq

/-- `_create_new_index` (lines 83-89). -/
def faissEmpty {V : Type} : FAISSState V :=
  { index := [], id_to_memory := [], memory_id_to_index := [], next_index_position := 0 }

/-- Register a brand-new record: append the vector slot bookkeeping used by
the new-item branch of `save` (lines 130-137), by the registration loop of
`batch_save` (lines 284-289), and by the rebuild loop of `rebuild_index`
(lines 375-380, whose explicit `enumerate` indices coincide with this
counter starting from 0). -/
def regNew (m : List (Nat × UnifiedMemoryItem)) (r : List (String × Nat))
    (next : Nat) (it : UnifiedMemoryItem) :
    List (Nat × UnifiedMemoryItem) × List (String × Nat) × Nat :=
  (insertA m next it, insertA r it.id next, next + 1)

/-- `FAISSMemoryStorage.save` (lines 113-140): an already-known id only
replaces the stored record (the embedding is *not* recomputed); a new id
gets its content embedded, the vector appended, and the slot registered. -/
def faissSave {V : Type} (embed : String → V) (s : FAISSState V)
    (it : UnifiedMemoryItem) : FAISSState V :=
  match lookupA s.memory_id_to_index it.id with
  | some pos => { s with id_to_memory := insertA s.id_to_memory pos it }
  | none =>
    let reg := regNew s.id_to_memory s.memory_id_to_index s.next_index_position it
    { index := s.index ++ [embed it.content]
      id_to_memory := reg.1
      memory_id_to_index := reg.2.1
      next_index_position := reg.2.2 }

/-- `FAISSMemoryStorage.get_by_id` (lines 142-149). -/
def faissGetById {V : Type} (s : FAISSState V) (memory_id : String) :
    Option UnifiedMemoryItem :=
  match lookupA s.memory_id_to_index memory_id with
  | some pos => lookupA s.id_to_memory pos
  | none => none

/-- `FAISSMemoryStorage.delete` (lines 246-264): remove both bookkeeping
entries; the vector itself stays in the index until `rebuild_index`.
Returns `False` when the id is unknown. -/
def faissDelete {V : Type} (s : FAISSState V) (memory_id : String) :
    FAISSState V × Bool :=
  match lookupA s.memory_id_to_index memory_id with
  | none => (s, false)
  | some pos =>
    ({ s with
        id_to_memory := eraseA s.id_to_memory pos
        memory_id_to_index := eraseA s.memory_id_to_index memory_id }, true)

/-- The per-candidate result copy of `query` (lines 172-183): the stored
record with the FAISS L2 distance merged into its metadata under
`similarity_score` (`{**item.metadata, 'similarity_score': d}`). -/
def withSimilarity (it : UnifiedMemoryItem) (dist : Nat) : UnifiedMemoryItem :=
  { it with metadata := insertA it.metadata "similarity_score" (toString dist) }

/-- `FAISSMemoryStorage.query` (lines 151-217).  When a truthy
`content_search` is present the query text is embedded and
`index.search` is consulted; that call is external C++ code, so its answer —
the `(indices, distances)` rows — is passed in as the `searchHits` oracle
(`-1` marks an empty slot of the answer and is skipped, as is any index
position absent from `id_to_memory`, which is how deleted ids stay
invisible).  Without a search term the stored records are listed.  The
in-memory post-filters and the final truncation to `limit` follow
lines 191-208; `total_count` is computed after truncation (line 214). -/
def faissQuery {V : Type} (s : FAISSState V) (f : MemoryQueryFilter)
    (searchHits : List (Int × Nat)) : MemorySearchResult :=
  let base : List UnifiedMemoryItem :=
    if truthyStr f.content_search then
      if 0 < s.index.length then
        searchHits.filterMap (fun hit =>
          if hit.1 = -1 then none
          else
            match lookupA s.id_to_memory hit.1.toNat with
            | some it => some (withSimilarity it hit.2)
            | none => none)
      else []
    else (s.id_to_memory.map Prod.snd).take f.limit
  let r₁ := if truthyList f.memory_types then
      base.filter (fun it => (f.memory_types.getD []).contains it.memory_type)
    else base
  let r₂ := if truthyList f.tier_sources then
      r₁.filter (fun it => (f.tier_sources.getD []).contains it.tier_source)
    else r₁
  let r₃ := if truthyList f.tags then
      r₂.filter (fun it => (f.tags.getD []).any (fun tg => it.tags.contains tg))
    else r₂
  let r₄ : List UnifiedMemoryItem := match f.start_time with
    | some t => r₃.filter (fun it => decide (t ≤ it.timestamp))
    | none => r₃
  let r₅ : List UnifiedMemoryItem := match f.end_time with
    | some t => r₄.filter (fun it => decide (it.timestamp ≤ t))
    | none => r₄
  let final := r₅.take f.limit
  { items := final, total_count := final.length }

/-- `FAISSMemoryStorage.semantic_search` (lines 320-337): wrapper around
`query` that always sets the content-search term. -/
def faissSemanticSearch {V : Type} (s : FAISSState V) (query : String)
    (memory_types : Option (List MemoryType)) (tier_sources : Option (List String))
    (limit : Nat) (searchHits : List (Int × Nat)) : MemorySearchResult :=
  faissQuery s
    { content_search := some query
      memory_types := memory_types
      tier_sources := tier_sources
      limit := limit }
    searchHits

/-- `FAISSMemoryStorage.batch_save` (lines 266-298): embed and append the
vectors of the ids not yet present (checked against the *pre-call* map),
register their slots, then overwrite the stored record of every id present
after registration. -/
def faissBatchSave {V : Type} (embed : String → V) (s : FAISSState V)
    (items : List UnifiedMemoryItem) : FAISSState V × List String :=
  let newItems := items.filter (fun it => !(lookupA s.memory_id_to_index it.id).isSome)
  let s₁ :=
    if newItems.isEmpty then s
    else
      let reg := newItems.foldl
        (fun acc it => regNew acc.1 acc.2.1 acc.2.2 it)
        (s.id_to_memory, s.memory_id_to_index, s.next_index_position)
      { index := s.index ++ newItems.map (fun it => embed it.content)
        id_to_memory := reg.1
        memory_id_to_index := reg.2.1
        next_index_position := reg.2.2 }
  let s₂ := items.foldl
    (fun acc it =>
      match lookupA acc.memory_id_to_index it.id with
      | some pos => { acc with id_to_memory := insertA acc.id_to_memory pos it }
      | none => acc)
    s₁
  (s₂, items.map (fun it => it.id))

/-- `FAISSMemoryStorage.rebuild_index` (lines 351-383): re-embed every live
record and rebuild index and maps from scratch, compacting the slots to
`0..N-1` (the source's `enumerate` indices are the `regNew` counter started
from the fresh empty maps) and setting `next_index_position` to the live
count. -/
def faissRebuildIndex {V : Type} (embed : String → V) (s : FAISSState V) :
    FAISSState V :=
  if s.id_to_memory.isEmpty then faissEmpty
  else
    let items := s.id_to_memory.map Prod.snd
    let reg := items.foldl (fun acc it => regNew acc.1 acc.2.1 acc.2.2 it)
      (([] : List (Nat × UnifiedMemoryItem)), ([] : List (String × Nat)), 0)
    { index := items.map (fun it => embed it.content)
      id_to_memory := reg.1
      memory_id_to_index := reg.2.1
      next_index_position := reg.2.2 }

/-! ## Hybrid coordinator (src/core/memory/storage/hybrid_storage.py) -/

/-- The three storage backends of the coordinator. -/
inductive Backend where
  | flatFile
  | relational
  | vector
deriving DecidableEq, Repr

structure HybridState (V : Type) where
  json : JSONStore
  sqlite : SQLiteStore
  faiss : FAISSState V
deriving DecidableEq

/-- `HybridMemoryStorage.save` (lines 29-36): the three backend writes are
awaited sequentially — flat-file, then relational, then vector — and the
item id is returned.  The third component records that ordered write
sequence (one event per awaited backend `save`, in program order). -/
def hybridSave {V : Type} (embed : String → V) (s : HybridState V)
    (item : UnifiedMemoryItem) : HybridState V × String × List (Backend × String) :=
  let j := jsonSave s.json item
  let q := sqliteSave s.sqlite item
  let fz := faissSave embed s.faiss item
  ({ json := j.1, sqlite := q.1, faiss := fz }, item.id,
   [(Backend.flatFile, j.2), (Backend.relational, q.2), (Backend.vector, item.id)])

/-- `HybridMemoryStorage.get_by_id` (lines 38-42): flat-file only. -/
def hybridGetById {V : Type} (s : HybridState V) (memory_id : String) :
    Option UnifiedMemoryItem :=
  jsonGetById s.json memory_id

/-- `HybridMemoryStorage.query` (lines 44-48): relational only. -/
def hybridQuery {V : Type} (s : HybridState V) (f : MemoryQueryFilter) :
    MemorySearchResult :=
  sqliteQuery s.sqlite f

/-- `HybridMemoryStorage.semantic_search` (lines 50-54): vector only. -/
def hybridSemanticSearch {V : Type} (s : HybridState V) (query : String)
    (memory_types : Option (List MemoryType)) (tier_sources : Option (List String))
    (limit : Nat) (searchHits : List (Int × Nat)) : MemorySearchResult :=
  faissSemanticSearch s.faiss query memory_types tier_sources limit searchHits

/-- `HybridMemoryStorage.update` (lines 56-63): flat-file update first; the
relational update runs only if it succeeded; the vector backend is not
touched. -/
def hybridUpdate {V : Type} (s : HybridState V) (memory_id : String)
    (u : MemoryUpdates) : HybridState V × Bool :=
  let j := jsonUpdate s.json memory_id u
  if j.2 then
    ({ s with json := j.1, sqlite := (sqliteUpdate s.sqlite memory_id u).1 }, true)
  else
    ({ s with json := j.1 }, false)

/-- `HybridMemoryStorage.delete` (lines 65-73): flat-file delete first; the
relational and vector deletes run only if it succeeded. -/
def hybridDelete {V : Type} (s : HybridState V) (memory_id : String) :
    HybridState V × Bool :=
  let j := jsonDelete s.json memory_id
  if j.2 then
    ({ json := j.1
       sqlite := (sqliteDelete s.sqlite memory_id).1
       faiss := (faissDelete s.faiss memory_id).1 }, true)
  else
    ({ s with json := j.1 }, false)

/-- `HybridMemoryStorage.cleanup_expired` (lines 85-89): flat-file only. -/
def hybridCleanupExpired {V : Type} (now : Nat) (s : HybridState V)
    (dry_run : Bool) : HybridState V × Nat :=
  let j := jsonCleanupExpired now s.json dry_run
  ({ s with json := j.1 }, j.2)

/-! ## Memory hub (src/unified_memory/memory_hub.py) -/

structure HubState (V : Type) where
  storage : HybridState V
  session_memories : List (String × List String)

/-- The `UnifiedMemoryItem(...)` construction inside `save_memory`
(memory_hub.py lines 34-41).  The model has no `session_id` field, so the
`session_id=session_id` keyword is silently ignored by pydantic; `id` and
`timestamp` come from the model's default factories (`uuid4` and
`datetime.utcnow`), passed here explicitly as `genId`/`now`; the remaining
fields take their declared defaults. -/
def hubBuildItem (content : String) (memory_type : MemoryType)
    (tier_source : String) (session_id : String)
    (metadata : Option (List (String × String))) (tags : Option (List String))
    (genId : String) (now : Nat) : UnifiedMemoryItem :=
  { id := genId
    content := content
    memory_type := memory_type
    tier_source := tier_source
    tags := tags.getD []
    metadata := metadata.getD []
    timestamp := now
    retention_policy := RetentionPolicy.auto_expire
    access_count := 0
    last_accessed := none }

/-- `UnifiedMemoryHub.save_memory` (lines 29-51): build the record, delegate
to the coordinator's save, then append the new id to the in-process list
keyed by `session_id`. -/
def hubSaveMemory {V : Type} (embed : String → V) (h : HubState V)
    (content : String) (memory_type : MemoryType) (tier_source : String)
    (session_id : String) (metadata : Option (List (String × String)))
    (tags : Option (List String)) (genId : String) (now : Nat) :
    HubState V × String :=
  let item := hubBuildItem content memory_type tier_source session_id metadata tags genId now
  let saved := hybridSave embed h.storage item
  let memory_id := saved.2.1
  let cache :=
    match lookupA h.session_memories session_id with
    | some l => insertA h.session_memories session_id (l ++ [memory_id])
    | none => insertA h.session_memories session_id ([] ++ [memory_id])
  ({ storage := saved.1, session_memories := cache }, memory_id)

/-- `UnifiedMemoryHub.get_session_memories` (lines 80-87): constructs
`MemoryQueryFilter(session_id=session_id, limit=limit)` — but the filter
model has no `session_id` field, so pydantic drops the keyword and the
storage query runs with only `limit` set — and returns the items. -/
def hubGetSessionMemories {V : Type} (h : HubState V) (session_id : String)
    (limit : Nat) : List UnifiedMemoryItem :=
  (hybridQuery h.storage { limit := limit }).items

/-- `UnifiedMemoryHub.get_session_cache` (lines 110-112). -/
def hubGetSessionCache {V : Type} (h : HubState V) (session_id : String) :
    List String :=
  (lookupA h.session_memories session_id).getD []

/-! ## Helper lemmas about the embedded operations -/

/-- Serialising a record to an SQLite row and validating it back yields the
record with its tags replaced by the split of their comma-join; every other
column round-trips exactly. -/
theorem rowToItem_itemToRow (it : UnifiedMemoryItem) :
    rowToItem (itemToRow it) = some { it with tags := splitTags (joinTags it.tags) } := by
  simp [rowToItem, itemToRow, memoryTypeValue_roundtrip, retentionPolicyValue_roundtrip]

/-- After a FAISS save, looking the id up returns the saved record (both for
a fresh id and for an overwrite of an existing slot). -/
theorem faissGetById_faissSave {V : Type} (embed : String → V)
    (s : FAISSState V) (it : UnifiedMemoryItem) :
    faissGetById (faissSave embed s it) it.id = some it := by
  cases hl : lookupA s.memory_id_to_index it.id with
  | none =>
    simp only [faissSave, hl, regNew, faissGetById, lookupA_insertA_self]
  | some pos =>
    simp only [faissSave, hl, faissGetById]
    exact lookupA_insertA_self _ _ _

/-! ## C1 — coordinator save fans out to all three backends, in order -/

/-- C1: a coordinator `save(R)` issues the backend writes sequentially —
flat-file, then relational, then vector — returns `R.id`, and immediately
afterwards `R` is present with identical content in all three backends
(in full fidelity in the flat-file and vector stores, and with identical
`content` in the relational row). -/
theorem coordinator_save_fans_out_in_order {V : Type} (embed : String → V)
    (s : HybridState V) (item : UnifiedMemoryItem) :
    (hybridSave embed s item).2.1 = item.id ∧
    (hybridSave embed s item).2.2 =
      [(Backend.flatFile, item.id), (Backend.relational, item.id),
       (Backend.vector, item.id)] ∧
    jsonGetById (hybridSave embed s item).1.json item.id = some item ∧
    (sqliteGetById (hybridSave embed s item).1.sqlite item.id).map
      (fun r => r.content) = some item.content ∧
    faissGetById (hybridSave embed s item).1.faiss item.id = some item := by
  refine ⟨rfl, rfl, ?_, ?_, ?_⟩
  · show lookupA (insertA s.json item.id item) item.id = some item
    exact lookupA_insertA_self _ _ _
  · show ((lookupA (insertA s.sqlite item.id (itemToRow item)) item.id).bind rowToItem).map
      (fun r => r.content) = some item.content
    rw [lookupA_insertA_self, Option.some_bind, rowToItem_itemToRow]
    rfl
  · exact faissGetById_faissSave embed s.faiss item

/-! ## C2 — per-backend round-trip (corrected)

The claim asserts `save` / `get_by_id` round-trips every field on every
backend, in particular for `tags = []`.  On the relational backend this
fails: `','.join([])` stores the empty string and `''.split(',')` reads back
`['']`, so the empty tag list round-trips to a one-element list holding the
empty string.  The flat-file and vector backends round-trip every record
exactly; the relational backend round-trips whenever the tag list is
nonempty and no tag contains a comma. -/

/-- A record with `tags = []`, used to refute the claimed SQLite round-trip. -/
def itemEmptyTags : UnifiedMemoryItem :=
  { id := "e1"
    content := "hello world"
    memory_type := MemoryType.conversation
    tier_source := "node"
    tags := []
    metadata := []
    timestamp := 0
    retention_policy := RetentionPolicy.permanent
    access_count := 0
    last_accessed := none }

/-- C2 counterexample: on the relational backend, saving a record whose
`tags` is the empty list and reading it back yields `tags = [""]`, not the
saved record — the round-trip claim fails at this input. -/
theorem sqlite_roundtrip_empty_tags_counterexample :
    sqliteGetById (sqliteSave [] itemEmptyTags).1 itemEmptyTags.id =
      some { itemEmptyTags with tags := [""] } ∧
    sqliteGetById (sqliteSave [] itemEmptyTags).1 itemEmptyTags.id ≠
      some itemEmptyTags := by
  constructor
  · decide
  · decide

/-- C2 (amended): `save` followed by `get_by_id` returns a record equal to
the saved one in every field on the flat-file and vector backends for all
records, and on the relational backend for every record whose tag list is
nonempty and comma-free (the comma-joined TEXT column cannot represent the
empty list or tags containing commas). -/
theorem backend_roundtrip_amended {V : Type} (embed : String → V)
    (sj : JSONStore) (sq : SQLiteStore) (sf : FAISSState V)
    (item : UnifiedMemoryItem) :
    jsonGetById (jsonSave sj item).1 item.id = some item ∧
    faissGetById (faissSave embed sf item) item.id = some item ∧
    (item.tags ≠ [] → (∀ t ∈ item.tags, ∀ c ∈ t.data, c ≠ ',') →
      sqliteGetById (sqliteSave sq item).1 item.id = some item) := by
  refine ⟨lookupA_insertA_self _ _ _, faissGetById_faissSave embed sf item, ?_⟩
  intro hne hcf
  show (lookupA (insertA sq item.id (itemToRow item)) item.id).bind rowToItem =
    some item
  rw [lookupA_insertA_self, Option.some_bind, rowToItem_itemToRow,
    splitTags_joinTags item.tags hne hcf]

/-- A comma-free, nonempty-tagged record witnessing the amended C2. -/
def itemTagged : UnifiedMemoryItem :=
  { id := "w2"
    content := "greetings"
    memory_type := MemoryType.task
    tier_source := "link"
    tags := ["python", "rust"]
    metadata := [("k", "v")]
    timestamp := 5
    retention_policy := RetentionPolicy.temporary
    access_count := 1
    last_accessed := some 7 }

theorem backend_roundtrip_amended_witness :
    jsonGetById (jsonSave [] itemTagged).1 itemTagged.id = some itemTagged ∧
    faissGetById (faissSave (fun t => t.length) faissEmpty itemTagged)
      itemTagged.id = some itemTagged ∧
    sqliteGetById (sqliteSave [] itemTagged).1 itemTagged.id = some itemTagged := by
  have h := backend_roundtrip_amended (fun t => t.length) [] []
    faissEmpty itemTagged
  exact ⟨h.1, h.2.1, h.2.2 (by decide) (by decide)⟩

/-! ## C4 — delete of an absent id (corrected)

The flat-file and vector backends indeed return `False` without raising
when the id is absent.  The relational backend does not: its `delete`
returns `True` unconditionally (sqlite_storage.py line 141), because the
SQL `DELETE` succeeds whether or not any row matched. -/

/-- C4 counterexample: deleting an id that is not present from the
relational backend returns `True`, refuting "returns false on every
backend". -/
theorem sqlite_delete_missing_counterexample :
    lookupA ([] : SQLiteStore) "missing" = none ∧
    (sqliteDelete ([] : SQLiteStore) "missing").2 = true := by
  exact ⟨rfl, rfl⟩

/-- C4 (amended): deleting an absent id returns `False` (and leaves the
store unchanged) on the flat-file and vector backends; the relational
backend's delete leaves the table unchanged for an absent id but returns
`True` unconditionally. -/
theorem delete_missing_id_amended {V : Type} (j : JSONStore) (q : SQLiteStore)
    (f : FAISSState V) (memory_id : String) :
    (lookupA j memory_id = none → jsonDelete j memory_id = (j, false)) ∧
    (lookupA f.memory_id_to_index memory_id = none →
      faissDelete f memory_id = (f, false)) ∧
    (sqliteDelete q memory_id).2 = true ∧
    (lookupA q memory_id = none → (sqliteDelete q memory_id).1 = q) := by
  refine ⟨?_, ?_, rfl, ?_⟩
  · intro h
    simp [jsonDelete, h]
  · intro h
    simp [faissDelete, h]
  · intro h
    exact eraseA_of_lookupA_none h

theorem delete_missing_id_amended_witness :
    jsonDelete [] "ghost" = ([], false) ∧
    faissDelete (faissEmpty : FAISSState Nat) "ghost" = (faissEmpty, false) ∧
    (sqliteDelete [] "ghost").2 = true ∧
    (sqliteDelete ([] : SQLiteStore) "ghost").1 = [] := by
  have h := delete_missing_id_amended [] []
    (faissEmpty : FAISSState Nat) "ghost"
  exact ⟨h.1 rfl, h.2.1 rfl, h.2.2.1, h.2.2.2 rfl⟩

/-! ## C5 — coordinator delete is gated by the flat-file backend -/

/-- C5: when the id is absent from the flat-file backend, the coordinator's
delete returns `False` and the whole state — in particular the relational
and vector backends — is left unchanged. -/
theorem coordinator_delete_miss_is_noop {V : Type} (s : HybridState V)
    (memory_id : String) (h : lookupA s.json memory_id = none) :
    hybridDelete s memory_id = (s, false) := by
  simp [hybridDelete, jsonDelete, h]

def hybridEmptyNat : HybridState Nat :=
  { json := [], sqlite := [], faiss := faissEmpty }

theorem coordinator_delete_miss_is_noop_witness :
    hybridDelete hybridEmptyNat "ghost" = (hybridEmptyNat, false) :=
  coordinator_delete_miss_is_noop hybridEmptyNat "ghost" rfl

/-! ## C6 — coordinator update never touches the vector backend -/

/-- C6: `coordinator.update` applies the updates to the flat-file backend,
runs the relational update only if the flat-file update succeeded, and
leaves the vector backend's state (index, slot mappings, stored records)
entirely unchanged. -/
theorem coordinator_update_frame {V : Type} (s : HybridState V)
    (memory_id : String) (u : MemoryUpdates) :
    (hybridUpdate s memory_id u).1.faiss = s.faiss ∧
    (hybridUpdate s memory_id u).2 = (jsonUpdate s.json memory_id u).2 ∧
    (hybridUpdate s memory_id u).1.json = (jsonUpdate s.json memory_id u).1 ∧
    (hybridUpdate s memory_id u).1.sqlite =
      (if (jsonUpdate s.json memory_id u).2 then
        (sqliteUpdate s.sqlite memory_id u).1
      else s.sqlite) := by
  cases hj : (jsonUpdate s.json memory_id u).2 <;>
    simp [hybridUpdate, hj]

/-! ## C10 — session_id never reaches the persisted record -/

/-- C10: two `save_memory` calls differing only in `session_id` build the
identical record and hand the storage backend the identical state; the
`session_id` influences only the in-process session cache, which maps the
session id to the ids saved under it, appended in save order. -/
theorem hub_save_ignores_session_id {V : Type} (embed : String → V)
    (h : HubState V) (content : String) (memory_type : MemoryType)
    (tier_source : String) (sid sid' : String)
    (metadata : Option (List (String × String))) (tags : Option (List String))
    (genId : String) (now : Nat) :
    hubBuildItem content memory_type tier_source sid metadata tags genId now =
      hubBuildItem content memory_type tier_source sid' metadata tags genId now ∧
    (hubSaveMemory embed h content memory_type tier_source sid metadata tags
        genId now).1.storage =
      (hubSaveMemory embed h content memory_type tier_source sid' metadata tags
        genId now).1.storage ∧
    (hubSaveMemory embed h content memory_type tier_source sid metadata tags
        genId now).2 = genId ∧
    (hubSaveMemory embed h content memory_type tier_source sid metadata tags
        genId now).1.session_memories =
      insertA h.session_memories sid
        ((lookupA h.session_memories sid).getD [] ++ [genId]) := by
  refine ⟨rfl, rfl, rfl, ?_⟩
  cases hl : lookupA h.session_memories sid <;>
    simp [hubSaveMemory, hybridSave, hubBuildItem, hl]

/-! ## C7 — flat-file expiration sweep -/

theorem lookupA_filter {K V : Type} [DecidableEq K] {l : List (K × V)}
    (nd : (l.map Prod.fst).Nodup) (p : K × V → Bool) (k : K) (v : V) :
    lookupA (l.filter p) k = some v ↔
      (lookupA l k = some v ∧ p (k, v) = true) := by
  induction l with
  | nil => simp [lookupA]
  | cons hd tl ih =>
    obtain ⟨k₁, v₁⟩ := hd
    simp only [List.map_cons, List.nodup_cons] at nd
    by_cases hp : p (k₁, v₁) = true
    · by_cases hk : k = k₁
      · subst hk
        simp [List.filter_cons, hp, lookupA]
        intro hv
        subst hv
        exact hp
      · simp [List.filter_cons, hp, lookupA, hk, ih nd.2]
    · by_cases hk : k = k₁
      · subst hk
        have hnone : lookupA tl k = none :=
          lookupA_eq_none_iff.mpr nd.1
        simp only [List.filter_cons, if_neg hp, lookupA, if_pos rfl]
        rw [ih nd.2, hnone]
        constructor
        · rintro ⟨hc, -⟩
          exact Option.noConfusion hc
        · rintro ⟨hv, hpv⟩
          injection hv with hv'
          subst hv'
          exact absurd hpv hp
      · simp only [List.filter_cons, if_neg hp]
        rw [ih nd.2]
        simp [lookupA, hk]

/-- C7: the flat-file `cleanup_expired` counts exactly the records whose
retention policy is `temporary` and whose age strictly exceeds the 24-hour
horizon; with `dry_run=True` it returns that count and deletes nothing; with
`dry_run=False` exactly the expired records are gone afterwards (a record at
or under the horizon — e.g. one second younger — is never counted or
deleted, since the comparison is strict). -/
theorem json_cleanup_expired_exact (now : Nat) (s : JSONStore) (dry_run : Bool)
    (nd : (s.map Prod.fst).Nodup) :
    (∀ it : UnifiedMemoryItem, expiredAt now it = true ↔
      (it.retention_policy = RetentionPolicy.temporary ∧
        24 * 3600 < now - it.timestamp)) ∧
    (jsonCleanupExpired now s dry_run).2 =
      (s.filter (fun q => expiredAt now q.2)).length ∧
    (dry_run = true → (jsonCleanupExpired now s dry_run).1 = s) ∧
    (dry_run = false → ∀ (memory_id : String) (it : UnifiedMemoryItem),
      lookupA (jsonCleanupExpired now s dry_run).1 memory_id = some it ↔
        (lookupA s memory_id = some it ∧ expiredAt now it = false)) := by
  refine ⟨?_, rfl, ?_, ?_⟩
  · intro it
    simp [expiredAt]
  · intro hd
    simp [jsonCleanupExpired, hd]
  · intro hd memory_id it
    subst hd
    show lookupA (s.filter (fun q => !(expiredAt now q.2))) memory_id = some it ↔ _
    rw [lookupA_filter nd (fun q => !(expiredAt now q.2)) memory_id it]
    simp

/-- A temporary record created at time 50000 (inside the horizon at 100000). -/
def itemYoungW : UnifiedMemoryItem :=
  { itemEmptyTags with
      id := "young"
      retention_policy := RetentionPolicy.temporary
      timestamp := 50000 }

/-- A temporary record created at time 0 (expired at 100000). -/
def itemOldW : UnifiedMemoryItem :=
  { itemEmptyTags with
      id := "old"
      retention_policy := RetentionPolicy.temporary
      timestamp := 0 }

/-- A two-record store: one record safely inside the horizon, one expired. -/
def cleanupStoreW : JSONStore :=
  [("young", itemYoungW), ("old", itemOldW)]

theorem json_cleanup_expired_exact_witness :
    ((jsonCleanupExpired 100000 cleanupStoreW false).2 =
      (cleanupStoreW.filter (fun q => expiredAt 100000 q.2)).length) ∧
    (lookupA (jsonCleanupExpired 100000 cleanupStoreW false).1 "young" =
        some itemYoungW ∧
      expiredAt 100000 itemYoungW = false) := by
  have h := json_cleanup_expired_exact 100000 cleanupStoreW false (by decide)
  exact ⟨h.2.1,
    (h.2.2.2 rfl "young" itemYoungW).mpr ⟨by decide, by decide⟩, by decide⟩

/-! ## The vector backend bookkeeping invariant (used by C3 and C9) -/

/-- Well-formedness of the two slot-bookkeeping dicts together with the
append counter: keys are unique on both sides, the stored record ids are
pairwise distinct across slots, the two maps are mutually inverse, and
every occupied slot is below the append counter. -/
def MapsInv (m : List (Nat × UnifiedMemoryItem)) (r : List (String × Nat))
    (next : Nat) : Prop :=
  (m.map Prod.fst).Nodup ∧
  (m.map (fun p => p.2.id)).Nodup ∧
  (r.map Prod.fst).Nodup ∧
  (∀ p ∈ m, lookupA r p.2.id = some p.1) ∧
  (∀ q ∈ r, (lookupA m q.2).map (fun it => it.id) = some q.1) ∧
  (∀ p ∈ m, p.1 < next)

/-- The full vector-backend invariant: well-formed bookkeeping and an
append counter equal to the FAISS index's vector count (`index.ntotal`). -/
def FaissInv {V : Type} (s : FAISSState V) : Prop :=
  MapsInv s.id_to_memory s.memory_id_to_index s.next_index_position ∧
  s.next_index_position = s.index.length

instance (m : List (Nat × UnifiedMemoryItem)) (r : List (String × Nat))
    (next : Nat) : Decidable (MapsInv m r next) := by
  unfold MapsInv
  infer_instance

instance {V : Type} (s : FAISSState V) : Decidable (FaissInv s) := by
  unfold FaissInv
  infer_instance

/-! ## C3 — deleted ids never surface from the vector backend -/

theorem match_filter_subset {α : Type} (o : Option Nat) (g : Nat → α → Bool)
    (l : List α) :
    (match o with | some t => l.filter (g t) | none => l) ⊆ l := by
  cases o with
  | none => exact fun x hx => hx
  | some t => exact List.filter_subset' _

theorem ite_filter_subset {α : Type} (c : Prop) [Decidable c]
    (p : α → Bool) (l : List α) :
    (if c then l.filter p else l) ⊆ l := by
  split
  · exact List.filter_subset' _
  · exact fun x hx => hx

/-- Every item a FAISS `query` returns originates from a live entry of
`id_to_memory` with the same record id (the search-hit oracle is filtered
through the slot map, and post-filters only discard). -/
theorem mem_faissQuery_items {V : Type} {s : FAISSState V}
    {f : MemoryQueryFilter} {cand : List (Int × Nat)} {it : UnifiedMemoryItem}
    (h : it ∈ (faissQuery s f cand).items) :
    ∃ p ∈ s.id_to_memory, it.id = p.2.id := by
  simp only [faissQuery] at h
  replace h := List.take_subset _ _ h
  replace h := match_filter_subset f.end_time _ _ h
  replace h := match_filter_subset f.start_time _ _ h
  replace h := ite_filter_subset _ _ _ h
  replace h := ite_filter_subset _ _ _ h
  replace h := ite_filter_subset _ _ _ h
  by_cases hcs : truthyStr f.content_search = true
  · rw [if_pos hcs] at h
    by_cases hlen : 0 < s.index.length
    · rw [if_pos hlen] at h
      obtain ⟨hit, hhit, hf⟩ := List.mem_filterMap.mp h
      by_cases hneg : hit.1 = -1
      · rw [if_pos hneg] at hf
        exact Option.noConfusion hf
      · rw [if_neg hneg] at hf
        cases hl : lookupA s.id_to_memory hit.1.toNat with
        | none => rw [hl] at hf; exact Option.noConfusion hf
        | some it₀ =>
          rw [hl] at hf
          injection hf with hf
          refine ⟨(hit.1.toNat, it₀), lookupA_mem hl, ?_⟩
          rw [← hf]
          rfl
    · rw [if_neg hlen] at h
      exact absurd h (List.not_mem_nil it)
  · rw [if_neg hcs] at h
    replace h := List.take_subset _ _ h
    obtain ⟨p, hp, hpe⟩ := List.mem_map.mp h
    exact ⟨p, hp, by rw [← hpe]⟩

/-- If no live entry carries the id, no query result does either. -/
theorem faissQuery_id_not_returned {V : Type} (s : FAISSState V)
    (memory_id : String) (hid : ∀ p ∈ s.id_to_memory, p.2.id ≠ memory_id)
    (f : MemoryQueryFilter) (cand : List (Int × Nat)) :
    ∀ it ∈ (faissQuery s f cand).items, it.id ≠ memory_id := by
  intro it hmem he
  obtain ⟨p, hp, hidq⟩ := mem_faissQuery_items hmem
  exact hid p hp (by rw [← hidq, he])

/-- After a FAISS delete (successful or not), no live entry carries the
deleted id, provided the bookkeeping invariant held before. -/
theorem faissDelete_id_unreachable {V : Type} (s : FAISSState V)
    (memory_id : String) (hinv : FaissInv s) :
    ∀ p ∈ (faissDelete s memory_id).1.id_to_memory, p.2.id ≠ memory_id := by
  obtain ⟨⟨ndm, _, _, hfwd, _, _⟩, _⟩ := hinv
  cases hl : lookupA s.memory_id_to_index memory_id with
  | none =>
    simp only [faissDelete, hl]
    intro p hp he
    have := hfwd p hp
    rw [he, hl] at this
    exact Option.noConfusion this
  | some pos =>
    simp only [faissDelete, hl]
    intro p hp he
    have hpm := mem_of_mem_eraseA hp
    have hne := fst_ne_of_mem_eraseA ndm hp
    have := hfwd p hpm
    rw [he, hl] at this
    injection this with this
    exact hne this.symm

/-- C3: after a successful `delete(id)` on the vector backend — directly or
through `coordinator.delete` — the underlying vector stays in the index, yet
no `query` or `semantic_search` result ever carries the deleted id (the
results are filtered through the id-to-slot bookkeeping, whatever slots the
index search reports). -/
theorem vector_delete_hides_id {V : Type} (s : FAISSState V)
    (memory_id : String) (hinv : FaissInv s) :
    (∀ s', faissDelete s memory_id = (s', true) →
      s'.index = s.index ∧
      (∀ f cand, ∀ it ∈ (faissQuery s' f cand).items, it.id ≠ memory_id) ∧
      (∀ q mts tss lim cand,
        ∀ it ∈ (faissSemanticSearch s' q mts tss lim cand).items,
          it.id ≠ memory_id)) ∧
    (∀ (hs : HybridState V) hs', hs.faiss = s →
      hybridDelete hs memory_id = (hs', true) →
      ∀ f cand, ∀ it ∈ (faissQuery hs'.faiss f cand).items,
        it.id ≠ memory_id) := by
  constructor
  · intro s' hdel
    have hs' : s' = (faissDelete s memory_id).1 := by rw [hdel]
    have hidle := faissDelete_id_unreachable s memory_id hinv
    refine ⟨?_, ?_, ?_⟩
    · cases hl : lookupA s.memory_id_to_index memory_id with
      | none =>
        simp only [faissDelete, hl] at hdel
        exact absurd (congrArg Prod.snd hdel) (by simp)
      | some pos =>
        rw [hs']
        simp only [faissDelete, hl]
    · intro f cand
      rw [hs']
      exact faissQuery_id_not_returned _ memory_id hidle f cand
    · intro q mts tss lim cand
      rw [hs']
      exact faissQuery_id_not_returned _ memory_id hidle _ cand
  · intro hs hs' hfz hdel
    cases hj : (jsonDelete hs.json memory_id).2 with
    | false =>
      simp only [hybridDelete, hj] at hdel
      exact absurd (congrArg Prod.snd hdel) (by simp [hj])
    | true =>
      have hpair : ({
          json := (jsonDelete hs.json memory_id).1
          sqlite := (sqliteDelete hs.sqlite memory_id).1
          faiss := (faissDelete hs.faiss memory_id).1 } : HybridState V) = hs' := by
        have h1 := congrArg Prod.fst hdel
        simp only [hybridDelete, hj] at h1
        simpa using h1
      intro f cand
      rw [← hpair]
      show ∀ it ∈ (faissQuery (faissDelete hs.faiss memory_id).1 f cand).items,
        it.id ≠ memory_id
      rw [hfz]
      exact faissQuery_id_not_returned _ memory_id
        (faissDelete_id_unreachable s memory_id hinv) f cand

def itemA : UnifiedMemoryItem := { itemEmptyTags with id := "a" }

def itemB : UnifiedMemoryItem := { itemEmptyTags with id := "b" }

/-- A two-record vector store satisfying the bookkeeping invariant. -/
def faissW : FAISSState Nat :=
  { index := [11, 12]
    id_to_memory := [(0, itemA), (1, itemB)]
    memory_id_to_index := [("a", 0), ("b", 1)]
    next_index_position := 2 }

/-! ## C9 — the bookkeeping invariant is preserved by every mutation -/

theorem nodup_append_singleton {α : Type} {l : List α} {a : α}
    (h : l.Nodup) (ha : a ∉ l) : (l ++ [a]).Nodup := by
  induction l with
  | nil => simp
  | cons b t ih =>
    simp only [List.nodup_cons] at h
    simp only [List.mem_cons, not_or] at ha
    simp only [List.cons_append, List.nodup_cons]
    refine ⟨?_, ih h.2 ha.2⟩
    intro hb
    rcases List.mem_append.mp hb with hb | hb
    · exact h.1 hb
    · simp only [List.mem_singleton] at hb
      exact ha.1 hb.symm

/-- Registering a fresh id at the append cursor preserves the bookkeeping
invariant and bumps the cursor. -/
theorem regNew_inv {m : List (Nat × UnifiedMemoryItem)} {r : List (String × Nat)}
    {next : Nat} {it : UnifiedMemoryItem} (hm : MapsInv m r next)
    (hnew : lookupA r it.id = none) :
    MapsInv (insertA m next it) (insertA r it.id next) (next + 1) := by
  obtain ⟨ndm, ndi, ndr, hfwd, hbwd, hlt⟩ := hm
  have hmn : lookupA m next = none := by
    rw [lookupA_eq_none_iff]
    intro hmem
    obtain ⟨p, hp, hpe⟩ := List.mem_map.mp hmem
    exact absurd (hpe ▸ hlt p hp) (lt_irrefl next)
  have hmI : insertA m next it = m ++ [(next, it)] :=
    insertA_of_lookupA_none it hmn
  have hrI : insertA r it.id next = r ++ [(it.id, next)] :=
    insertA_of_lookupA_none next hnew
  have hidfresh : ∀ p ∈ m, p.2.id ≠ it.id := by
    intro p hp he
    have := hfwd p hp
    rw [he, hnew] at this
    exact Option.noConfusion this
  refine ⟨?_, ?_, ?_, ?_, ?_, ?_⟩
  · rw [hmI, List.map_append]
    exact nodup_append_singleton ndm (lookupA_eq_none_iff.mp hmn)
  · rw [hmI, List.map_append]
    refine nodup_append_singleton ndi ?_
    intro hmem
    obtain ⟨p, hp, hpe⟩ := List.mem_map.mp hmem
    exact hidfresh p hp hpe
  · rw [hrI, List.map_append]
    exact nodup_append_singleton ndr (lookupA_eq_none_iff.mp hnew)
  · intro p hp
    rw [hmI] at hp
    rcases List.mem_append.mp hp with hp | hp
    · rw [lookupA_insertA_ne r next (hidfresh p hp)]
      exact hfwd p hp
    · simp only [List.mem_singleton] at hp
      subst hp
      exact lookupA_insertA_self r _ _
  · intro q hq
    rw [hrI] at hq
    rcases List.mem_append.mp hq with hq | hq
    · have hb := hbwd q hq
      obtain ⟨it₀, hit₀, hid₀⟩ := Option.map_eq_some'.mp hb
      have hqlt : q.2 < next := hlt (q.2, it₀) (lookupA_mem hit₀)
      rw [lookupA_insertA_ne m it (Nat.ne_of_lt hqlt)]
      exact hb
    · simp only [List.mem_singleton] at hq
      subst hq
      rw [lookupA_insertA_self m _ _]
      rfl
  · intro p hp
    rw [hmI] at hp
    rcases List.mem_append.mp hp with hp | hp
    · exact Nat.lt_succ_of_lt (hlt p hp)
    · simp only [List.mem_singleton] at hp
      subst hp
      exact Nat.lt_succ_self next

/-- Overwriting the stored record of an already-registered id preserves the
bookkeeping invariant. -/
theorem replaceA_inv {m : List (Nat × UnifiedMemoryItem)} {r : List (String × Nat)}
    {next pos : Nat} {it : UnifiedMemoryItem} (hm : MapsInv m r next)
    (hpos : lookupA r it.id = some pos) :
    MapsInv (insertA m pos it) r next := by
  obtain ⟨ndm, ndi, ndr, hfwd, hbwd, hlt⟩ := hm
  have hold := hbwd (it.id, pos) (lookupA_mem hpos)
  obtain ⟨old, hlold, hidold⟩ := Option.map_eq_some'.mp hold
  obtain ⟨m₁, m₂, hl, hne₁, hins⟩ := insertA_decomp it hlold
  refine ⟨?_, ?_, ndr, ?_, ?_, ?_⟩
  · rw [hins]
    have : (m₁ ++ (pos, it) :: m₂).map Prod.fst = m.map Prod.fst := by
      rw [hl]
      simp
    rw [this]
    exact ndm
  · rw [hins]
    have : (m₁ ++ (pos, it) :: m₂).map (fun p => p.2.id) =
        m.map (fun p => p.2.id) := by
      rw [hl]
      simp [hidold]
    rw [this]
    exact ndi
  · intro p hp
    rw [hins] at hp
    rcases List.mem_append.mp hp with hp | hp
    · exact hfwd p (by rw [hl]; exact List.mem_append_left _ hp)
    · rcases List.mem_cons.mp hp with hp | hp
      · subst hp
        exact hpos
      · exact hfwd p
          (by rw [hl]; exact List.mem_append_right _ (List.mem_cons_of_mem _ hp))
  · intro q hq
    by_cases hqp : q.2 = pos
    · rw [hqp, lookupA_insertA_self m pos it]
      have hb := hbwd q hq
      rw [hqp, hlold] at hb
      simp only [Option.map_some'] at hb
      injection hb with hb
      simp only [Option.map_some', Option.some.injEq]
      have hidold' : old.id = it.id := hidold
      rw [← hidold']
      exact hb
    · rw [lookupA_insertA_ne m it hqp]
      exact hbwd q hq
  · intro p hp
    rw [hins] at hp
    rcases List.mem_append.mp hp with hp | hp
    · exact hlt p (by rw [hl]; exact List.mem_append_left _ hp)
    · rcases List.mem_cons.mp hp with hp | hp
      · subst hp
        exact hlt (pos, old) (by rw [hl]; exact List.mem_append_right _ (List.mem_cons_self _ _))
      · exact hlt p
          (by rw [hl]; exact List.mem_append_right _ (List.mem_cons_of_mem _ hp))

/-- Erasing a registered pair from both maps preserves the bookkeeping
invariant. -/
theorem eraseMaps_inv {m : List (Nat × UnifiedMemoryItem)} {r : List (String × Nat)}
    {next pos : Nat} {memory_id : String} (hm : MapsInv m r next)
    (hpos : lookupA r memory_id = some pos) :
    MapsInv (eraseA m pos) (eraseA r memory_id) next := by
  obtain ⟨ndm, ndi, ndr, hfwd, hbwd, hlt⟩ := hm
  have hslot := hbwd (memory_id, pos) (lookupA_mem hpos)
  refine ⟨?_, ?_, ?_, ?_, ?_, ?_⟩
  · exact List.Nodup.sublist ((eraseA_sublist m pos).map Prod.fst) ndm
  · exact List.Nodup.sublist ((eraseA_sublist m pos).map _) ndi
  · exact List.Nodup.sublist ((eraseA_sublist r memory_id).map Prod.fst) ndr
  · intro p hp
    have hpm := mem_of_mem_eraseA hp
    have hne := fst_ne_of_mem_eraseA ndm hp
    have hid : p.2.id ≠ memory_id := by
      intro he
      have := hfwd p hpm
      rw [he, hpos] at this
      injection this with this
      exact hne this.symm
    rw [lookupA_eraseA_ne r hid]
    exact hfwd p hpm
  · intro q hq
    have hqr := mem_of_mem_eraseA hq
    have hqne := fst_ne_of_mem_eraseA ndr hq
    have hq2 : q.2 ≠ pos := by
      intro he
      have hb := hbwd q hqr
      rw [he] at hb
      rw [hb] at hslot
      injection hslot with hslot
      exact hqne hslot
    rw [lookupA_eraseA_ne m hq2]
    exact hbwd q hqr
  · intro p hp
    exact hlt p (mem_of_mem_eraseA hp)

/-- Folding fresh registrations over a list of pairwise-distinct, unknown
ids preserves the bookkeeping invariant and advances the cursor by the list
length. -/
theorem regFold_inv (its : List UnifiedMemoryItem) :
    ∀ (m : List (Nat × UnifiedMemoryItem)) (r : List (String × Nat)) (next : Nat),
    MapsInv m r next →
    (its.map (fun x => x.id)).Nodup →
    (∀ x ∈ its, lookupA r x.id = none) →
    MapsInv (its.foldl (fun acc x => regNew acc.1 acc.2.1 acc.2.2 x) (m, r, next)).1
      (its.foldl (fun acc x => regNew acc.1 acc.2.1 acc.2.2 x) (m, r, next)).2.1
      (its.foldl (fun acc x => regNew acc.1 acc.2.1 acc.2.2 x) (m, r, next)).2.2 ∧
    (its.foldl (fun acc x => regNew acc.1 acc.2.1 acc.2.2 x) (m, r, next)).2.2 =
      next + its.length := by
  induction its with
  | nil =>
    intro m r next hm _ _
    exact ⟨hm, rfl⟩
  | cons x rest ih =>
    intro m r next hm hnd hnone
    simp only [List.map_cons, List.nodup_cons] at hnd
    have hx := hnone x (List.mem_cons_self _ _)
    have hm' := regNew_inv hm hx
    have hnone' : ∀ y ∈ rest, lookupA (insertA r x.id next) y.id = none := by
      intro y hy
      have hne : y.id ≠ x.id := by
        intro he
        exact hnd.1 (he ▸ List.mem_map_of_mem (fun z => z.id) hy)
      rw [lookupA_insertA_ne r next hne]
      exact hnone y (List.mem_cons_of_mem _ hy)
    have := ih (insertA m next x) (insertA r x.id next) (next + 1) hm' hnd.2 hnone'
    refine ⟨this.1, ?_⟩
    rw [List.foldl_cons]
    show (List.foldl _ (regNew m r next x) rest).2.2 = _
    have h2 := this.2
    simp only [regNew] at h2 ⊢
    rw [h2]
    simp [List.length_cons]
    omega

/-- The batch-save update loop (overwrite stored records of known ids)
preserves the full invariant. -/
theorem updFold_inv {V : Type} (items : List UnifiedMemoryItem) :
    ∀ (acc : FAISSState V), FaissInv acc →
    FaissInv (items.foldl
      (fun acc it =>
        match lookupA acc.memory_id_to_index it.id with
        | some pos => { acc with id_to_memory := insertA acc.id_to_memory pos it }
        | none => acc)
      acc) := by
  induction items with
  | nil => intro acc h; exact h
  | cons x rest ih =>
    intro acc h
    rw [List.foldl_cons]
    apply ih
    cases hl : lookupA acc.memory_id_to_index x.id with
    | none => simpa [hl] using h
    | some pos =>
      simp only [hl]
      exact ⟨replaceA_inv h.1 hl, h.2⟩

/-- C9: the vector backend's bookkeeping invariant — mutually inverse slot
maps with pairwise-distinct record ids, every occupied slot below
`next_index_position`, and `next_index_position` equal to the index's vector
count — is preserved by `save`, `delete`, `rebuild_index`, and by
`batch_save` whenever the batch's ids are pairwise distinct. -/
theorem faiss_invariant_preserved {V : Type} (embed : String → V)
    (s : FAISSState V) (it : UnifiedMemoryItem) (memory_id : String)
    (items : List UnifiedMemoryItem) (h : FaissInv s) :
    FaissInv (faissSave embed s it) ∧
    FaissInv (faissDelete s memory_id).1 ∧
    FaissInv (faissRebuildIndex embed s) ∧
    ((items.map (fun x => x.id)).Nodup →
      FaissInv (faissBatchSave embed s items).1) := by
  obtain ⟨hm, hn⟩ := h
  refine ⟨?_, ?_, ?_, ?_⟩
  · cases hl : lookupA s.memory_id_to_index it.id with
    | some pos =>
      simp only [faissSave, hl]
      exact ⟨replaceA_inv hm hl, hn⟩
    | none =>
      simp only [faissSave, hl, regNew]
      refine ⟨regNew_inv hm hl, ?_⟩
      simp [hn]
  · cases hl : lookupA s.memory_id_to_index memory_id with
    | none =>
      simp only [faissDelete, hl]
      exact ⟨hm, hn⟩
    | some pos =>
      simp only [faissDelete, hl]
      exact ⟨eraseMaps_inv hm hl, hn⟩
  · by_cases hemp : s.id_to_memory.isEmpty
    · simp only [faissRebuildIndex, if_pos hemp]
      exact ⟨⟨by simp [faissEmpty], by simp [faissEmpty], by simp [faissEmpty],
        by simp [faissEmpty], by simp [faissEmpty], by simp [faissEmpty]⟩, rfl⟩
    · simp only [faissRebuildIndex, if_neg hemp]
      have hids : ((s.id_to_memory.map Prod.snd).map (fun x => x.id)).Nodup := by
        rw [List.map_map]
        exact hm.2.1
      have hreg := regFold_inv (s.id_to_memory.map Prod.snd) [] [] 0
        ⟨by simp, by simp, by simp, by simp, by simp, by simp⟩
        hids (fun x _ => rfl)
      refine ⟨hreg.1, ?_⟩
      rw [hreg.2]
      simp
  · intro hids
    simp only [faissBatchSave]
    apply updFold_inv
    by_cases hne : (items.filter
        (fun x => !(lookupA s.memory_id_to_index x.id).isSome)).isEmpty
    · simp only [if_pos hne]
      exact ⟨hm, hn⟩
    · simp only [if_neg hne]
      have hsub : List.Sublist
          ((items.filter (fun x => !(lookupA s.memory_id_to_index x.id).isSome)).map
            (fun x => x.id))
          (items.map (fun x => x.id)) :=
        (List.filter_sublist items).map _
      have hnd' := List.Nodup.sublist hsub hids
      have hnone : ∀ x ∈ items.filter
          (fun x => !(lookupA s.memory_id_to_index x.id).isSome),
          lookupA s.memory_id_to_index x.id = none := by
        intro x hx
        have := (List.mem_filter.mp hx).2
        cases hcase : lookupA s.memory_id_to_index x.id with
        | none => rfl
        | some pos => rw [hcase] at this; simp at this
      have hreg := regFold_inv _ s.id_to_memory s.memory_id_to_index
        s.next_index_position hm hnd' hnone
      refine ⟨hreg.1, ?_⟩
      rw [hreg.2]
      simp [hn]

theorem vector_delete_hides_id_witness :
    (faissDelete faissW "a").1.index = faissW.index ∧
    "a" ∉ ((faissQuery (faissDelete faissW "a").1
      { content_search := some "hello", limit := 10 }
      [(0, 5), (1, 7)]).items.map (fun it => it.id)) := by
  have h := (vector_delete_hides_id faissW "a" (by decide)).1
    (faissDelete faissW "a").1 rfl
  refine ⟨h.1, ?_⟩
  intro hmem
  obtain ⟨it, hit, hide⟩ := List.mem_map.mp hmem
  exact h.2.1 { content_search := some "hello", limit := 10 }
    [(0, 5), (1, 7)] it hit hide

theorem faiss_invariant_preserved_witness :
    FaissInv (faissSave (fun t => t.length) faissW itemTagged) ∧
    FaissInv (faissDelete faissW "a").1 ∧
    FaissInv (faissRebuildIndex (fun t => t.length) faissW) ∧
    FaissInv (faissBatchSave (fun t => t.length) faissW [itemA, itemTagged]).1 := by
  have h := faiss_invariant_preserved (fun t => t.length) faissW itemTagged "a"
    [itemA, itemTagged] (by decide)
  exact ⟨h.1, h.2.1, h.2.2.1, h.2.2.2 (by decide)⟩

/-! ## C8 — `get_session_memories` is not, in fact, filtered by session

`UnifiedMemoryHub.get_session_memories` constructs
`MemoryQueryFilter(session_id=session_id, limit=limit)` (memory_hub.py
lines 82-85), but `MemoryQueryFilter` declares no `session_id` field, so
pydantic discards the keyword and the backend query runs unfiltered;
moreover the persisted record carries no session field at all (the
`session_id=session_id` keyword in the `UnifiedMemoryItem(...)` call at
lines 34-41 is discarded the same way), so no session filtering is possible
downstream.  The hub's own docstring ("Get all memories for a session") and
the deliberate passing of `session_id` show the filtering is intended: the
code drops it by mistake.  Concretely: after saving one record under
session "A" and one under session "B", `get_session_memories("A")` returns
both records. -/

def hubW0 : HubState Nat :=
  { storage := hybridEmptyNat, session_memories := [] }

/-- Hub state after `save_memory("alpha", ..., session_id="A")` (generated
id `"id1"`, creation time 0). -/
def hubW1 : HubState Nat × String :=
  hubSaveMemory (fun t => t.length) hubW0 "alpha" MemoryType.conversation
    "node" "A" none none "id1" 0

/-- Hub state after a further `save_memory("beta", ..., session_id="B")`
(generated id `"id2"`, creation time 1). -/
def hubW2 : HubState Nat × String :=
  hubSaveMemory (fun t => t.length) hubW1.1 "beta" MemoryType.conversation
    "node" "B" none none "id2" 1

/-- C8 at the failing input: the session cache records `"id1"` under "A"
and `"id2"` under "B", yet `get_session_memories("A")` returns both
records — including the one saved under session "B". -/
theorem hub_get_session_memories_unfiltered :
    hubW2.1.session_memories = [("A", ["id1"]), ("B", ["id2"])] ∧
    (hubGetSessionMemories hubW2.1 "A" 50).map (fun it => it.id) =
      ["id1", "id2"] := by
  exact ⟨by decide, by decide⟩

end AgentMem
